import Mathlib

/-!
Verification of the visual similarity search core of InstantPriceMatch.

The repository builds a normalized CLIP-embedding index (vectors plus
row-aligned metadata) and answers photo queries by brute-force cosine
similarity: `sims = vecs @ q`, then a top-K selection via
`np.argpartition(-sims, topk-1)[:topk]` refined by
`idx[np.argsort(-sims[idx])]`.

Scores are modelled exactly as rationals.  The numpy selection primitives
are modelled by the algorithms numpy runs on the paths exercised by this
code: `np.argpartition` dispatches to introselect, which for `kth < 3`
(and for any array of fewer than 21 elements) runs DUMBSELECT, a
selection loop that repeatedly swaps the first minimum (strict `<`, so
the earliest index wins a tie) to the front; `np.argsort` with the
default quicksort runs a stable insertion sort on subarrays of at most
16 elements, which covers every concrete instance evaluated below, and
the argsort input produced by this pipeline is already sorted, so any
correct sort agrees there.  All concrete counterexamples and witnesses
in this file stay inside those regimes, where the model is exactly the
numpy algorithm.
-/

deriving instance DecidableEq for Except

namespace InstantPriceMatch

/-- Dot product of two vectors, `vecs @ q` row-wise (both operands are
lists of exact rationals). -/
def dot (a b : List ℚ) : ℚ := (List.zipWith (· * ·) a b).sum

/-- Squared L2 norm of a vector: the exact value of `np.linalg.norm(x) ** 2`. -/
def normSq (a : List ℚ) : ℚ := dot a a

/-- Errors raised by the search path: `RuntimeError("Rows mismatch...")`
in `_load_index`, `ValueError: kth out of bounds` from `np.argpartition`,
and the out-of-range `meta.iloc[i]` lookup. -/
inductive SearchError where
  | rowsMismatch
  | kthOutOfBounds
  | ilocOutOfBounds
  deriving DecidableEq

/-- One entry of the list returned by `match_image`: the rank (starting
at 1), the similarity score `float(sims[i])`, and the metadata record
`meta.iloc[int(i)]` (kept abstract in `M`). -/
structure MatchResult (M : Type) where
  rank : ℕ
  score : ℚ
  meta : M
  deriving DecidableEq

/-- Split a nonempty list (given as head `x` and tail `xs`) at the first
minimum of the `.1` components: returns `(p, m, s)` with
`x :: xs = p ++ m :: s` and `m` the earliest element of minimal value.
This is the scan of numpy DUMBSELECT, whose strict `<` comparison keeps
the earliest index on ties. -/
def splitAtMin (x : ℚ × ℕ) : List (ℚ × ℕ) → List (ℚ × ℕ) × (ℚ × ℕ) × List (ℚ × ℕ)
  | [] => ([], x, [])
  | y :: ys =>
    if ∃ z ∈ y :: ys, z.1 < x.1 then
      let r := splitAtMin y ys
      (x :: r.1, r.2.1, r.2.2)
    else ([], x, y :: ys)

/-- One iteration of numpy DUMBSELECT on the remaining slots: select the
first minimum and swap it with the front slot (`SWAP(tosort[i], tosort[minidx])`);
the displaced front element lands in the slot the minimum came from. -/
def dumbstep : List (ℚ × ℕ) → Option ((ℚ × ℕ) × List (ℚ × ℕ))
  | [] => none
  | x :: xs =>
    match splitAtMin x xs with
    | ([], m, s) => some (m, s)
    | (_ :: p, m, s) => some (m, p ++ x :: s)

/-- numpy DUMBSELECT: `k` selection iterations (`for i in 0..kth` with
`k = kth + 1`); the slots beyond the last selected position keep the
order the swaps left them in.  `np.argpartition(v, kth)` runs exactly
this on the paths used here (`kth < 3`, or arrays shorter than 21). -/
def dumbselect : ℕ → List (ℚ × ℕ) → List (ℚ × ℕ)
  | 0, l => l
  | k + 1, l =>
    match dumbstep l with
    | none => []
    | some (m, rest) => m :: dumbselect k rest

/-- The (value, original index) pairs numpy argpartition tracks for the
array `-sims`, starting at index `i`. -/
def negIdxPairs : List ℚ → ℕ → List (ℚ × ℕ)
  | [], _ => []
  | s :: rest, i => (-s, i) :: negIdxPairs rest (i + 1)

/-- Comparison on the tracked value component, used by the final
`np.argsort(-sims[idx])` refinement. -/
def keyLE (a b : ℚ × ℕ) : Prop := a.1 ≤ b.1

instance : DecidableRel keyLE := fun a b => inferInstanceAs (Decidable (a.1 ≤ b.1))

instance : IsTotal (ℚ × ℕ) keyLE := ⟨fun a b => le_total a.1 b.1⟩

instance : IsTrans (ℚ × ℕ) keyLE := ⟨fun _ _ _ h1 h2 => le_trans h1 h2⟩

/-- The stable small-array sort numpy argsort runs on `-sims[idx]`
(insertion sort over the tracked pairs, compared by value). -/
def argsortPairs (l : List (ℚ × ℕ)) : List (ℚ × ℕ) := l.insertionSort keyLE

/-- The result-building loop of `match_image`:
`for rank, i in enumerate(idx, 1): row = meta.iloc[int(i)]; results.append(...)`.
The first argument below `metas` is the metadata table; the numeral is the
number of results already emitted, so the next rank is that plus one.
An out-of-range `iloc` lookup raises. -/
def buildResults (metas : List M) : ℕ → List (ℚ × ℕ) → Except SearchError (List (MatchResult M))
  | _, [] => .ok []
  | r, p :: rest =>
    match metas.get? p.2 with
    | none => .error .ilocOutOfBounds
    | some m =>
      match buildResults metas (r + 1) rest with
      | .error e => .error e
      | .ok out => .ok (⟨r + 1, -p.1, m⟩ :: out)

/-- The `_load_index` check of src/visual_scan.py: raise
`RuntimeError("Rows mismatch: ...")` when the metadata row count differs
from the vector row count, else return both. -/
def load_index (vecs : List (List ℚ)) (metas : List M) :
    Except SearchError (List (List ℚ) × List M) :=
  if metas.length ≠ vecs.length then .error .rowsMismatch
  else .ok (vecs, metas)

/-- The search core shared by the two `match_image` variants, after
`sims = vecs @ q` has been computed and the empty-index / clamping policy
has fixed `topk2` (the clamped K).  Models

`idx = np.argpartition(-sims, topk-1)[:topk]; idx = idx[np.argsort(-sims[idx])]`

including the numpy normalization of a negative `kth` and its bounds
check, which raises `ValueError: kth out of bounds` when `kth` falls
outside `[-n, n)` — in particular for every `kth` on a 0-row array. -/
def search_core (metas : List M) (sims : List ℚ) (topk2 : ℕ) :
    Except SearchError (List (MatchResult M)) :=
  let n := sims.length
  let kth : ℤ := (topk2 : ℤ) - 1
  let kthN : ℤ := if kth < 0 then kth + (n : ℤ) else kth
  if kthN < 0 ∨ (n : ℤ) ≤ kthN then .error .kthOutOfBounds
  else
    let part := dumbselect (kthN.toNat + 1) (negIdxPairs sims 0)
    let idx := part.take topk2
    buildResults metas 0 (argsortPairs idx)

/-- `match_image` from src/visual_scan.py (the embedding of the query
image is external; the query arrives as a vector `q`):

loads the index (row-count check), computes `sims = vecs @ q`, clamps
`topk` by `if topk > len(sims): topk = len(sims)`, then runs the
argpartition/argsort selection.  Note there is no guard for an empty
index before `np.argpartition` is called. -/
def match_image (q : List ℚ) (vecs : List (List ℚ)) (metas : List M) (topk : ℕ) :
    Except SearchError (List (MatchResult M)) :=
  match load_index vecs metas with
  | .error e => .error e
  | .ok (v, m) =>
    let sims := v.map (fun row => dot row q)
    let topk2 := if topk > sims.length then sims.length else topk
    search_core m sims topk2

/-- `match_image` from src/instant_price_match.py: loads vectors and
metadata with no row-count check, returns `[]` when `sims.size == 0`,
clamps with `topk = min(topk, sims.shape[0])`, then runs the same
selection. -/
def match_image_ipm (q : List ℚ) (vecs : List (List ℚ)) (metas : List M) (topk : ℕ) :
    Except SearchError (List (MatchResult M)) :=
  let sims := vecs.map (fun row => dot row q)
  if sims.length = 0 then .ok []
  else search_core metas sims (min topk sims.length)

/-- Structure of `splitAtMin`: it really splits the list at a position,
and the selected element is a minimum of the whole list. -/
theorem splitAtMin_spec (x : ℚ × ℕ) (xs : List (ℚ × ℕ)) :
    (splitAtMin x xs).1 ++ (splitAtMin x xs).2.1 :: (splitAtMin x xs).2.2 = x :: xs ∧
      ∀ z ∈ x :: xs, (splitAtMin x xs).2.1.1 ≤ z.1 := by
  induction xs generalizing x with
  | nil =>
    refine ⟨rfl, ?_⟩
    intro z hz
    simp only [List.mem_singleton] at hz
    simp [splitAtMin, hz]
  | cons y ys ih =>
    simp only [splitAtMin]
    split_ifs with h
    · obtain ⟨h1, h2⟩ := ih y
      refine ⟨by simpa using h1, ?_⟩
      intro z hz
      rcases List.mem_cons.mp hz with hz | hz
      · subst hz
        obtain ⟨w, hw, hwlt⟩ := h
        exact le_of_lt (lt_of_le_of_lt (h2 w hw) hwlt)
      · exact h2 z hz
    · push_neg at h
      refine ⟨rfl, ?_⟩
      intro z hz
      rcases List.mem_cons.mp hz with hz | hz
      · subst hz
        exact le_refl _
      · exact h z hz

/-- `dumbstep` succeeds exactly on nonempty lists. -/
theorem dumbstep_none (l : List (ℚ × ℕ)) : dumbstep l = none ↔ l = [] := by
  cases l with
  | nil => simp [dumbstep]
  | cons x xs =>
    rcases he : splitAtMin x xs with ⟨p, m, s⟩
    cases p <;> simp [dumbstep, he]

/-- The swap performed by a selection step only permutes the array. -/
theorem dumbstep_perm (l : List (ℚ × ℕ)) (m : ℚ × ℕ) (rest : List (ℚ × ℕ))
    (h : dumbstep l = some (m, rest)) : l.Perm (m :: rest) := by
  cases l with
  | nil => simp [dumbstep] at h
  | cons x xs =>
    have hs := splitAtMin_spec x xs
    rcases he : splitAtMin x xs with ⟨p, mm, s⟩
    rw [he] at hs
    cases p with
    | nil =>
      simp only [dumbstep, he, Option.some.injEq, Prod.mk.injEq] at h
      obtain ⟨rfl, rfl⟩ := h
      obtain ⟨h1, -⟩ := hs
      simp only [List.nil_append] at h1
      rw [← h1]
    | cons q p2 =>
      simp only [dumbstep, he, Option.some.injEq, Prod.mk.injEq] at h
      obtain ⟨rfl, rfl⟩ := h
      obtain ⟨h1, -⟩ := hs
      rw [List.cons_append] at h1
      injection h1 with hq hxs
      rw [← hxs, ← hq]
      exact (List.Perm.cons q List.perm_middle).trans
        ((List.Perm.swap mm q _).trans (List.Perm.cons mm List.perm_middle.symm))

/-- The element a selection step picks is a minimum of the array. -/
theorem dumbstep_min (l : List (ℚ × ℕ)) (m : ℚ × ℕ) (rest : List (ℚ × ℕ))
    (h : dumbstep l = some (m, rest)) : ∀ z ∈ l, m.1 ≤ z.1 := by
  cases l with
  | nil => simp [dumbstep] at h
  | cons x xs =>
    have hs := splitAtMin_spec x xs
    rcases he : splitAtMin x xs with ⟨p, mm, s⟩
    rw [he] at hs
    cases p with
    | nil =>
      simp only [dumbstep, he, Option.some.injEq, Prod.mk.injEq] at h
      obtain ⟨rfl, rfl⟩ := h
      exact hs.2
    | cons q p2 =>
      simp only [dumbstep, he, Option.some.injEq, Prod.mk.injEq] at h
      obtain ⟨rfl, rfl⟩ := h
      exact hs.2

theorem dumbselect_nil (k : ℕ) : dumbselect k [] = [] := by
  cases k <;> simp [dumbselect, dumbstep]

theorem dumbselect_succ (k : ℕ) (l : List (ℚ × ℕ)) (m : ℚ × ℕ) (rest : List (ℚ × ℕ))
    (h : dumbstep l = some (m, rest)) :
    dumbselect (k + 1) l = m :: dumbselect k rest := by
  simp [dumbselect, h]

/-- Selection only reorders the array. -/
theorem dumbselect_perm (k : ℕ) (l : List (ℚ × ℕ)) : (dumbselect k l).Perm l := by
  induction k generalizing l with
  | zero => exact List.Perm.refl l
  | succ k ih =>
    rcases h : dumbstep l with - | ⟨m, rest⟩
    · rw [(dumbstep_none l).mp h, dumbselect_nil]
    · rw [dumbselect_succ k l m rest h]
      exact ((ih rest).cons m).trans (dumbstep_perm l m rest h).symm

theorem dumbselect_length (k : ℕ) (l : List (ℚ × ℕ)) :
    (dumbselect k l).length = l.length :=
  (dumbselect_perm k l).length_eq

/-- After `k` selection iterations the first `k` slots are sorted
ascending and dominate every remaining slot. -/
theorem dumbselect_take_spec (k : ℕ) (l : List (ℚ × ℕ)) :
    ((dumbselect k l).take k).Sorted keyLE ∧
      ∀ a ∈ (dumbselect k l).take k, ∀ b ∈ (dumbselect k l).drop k, a.1 ≤ b.1 := by
  induction k generalizing l with
  | zero => simp
  | succ k ih =>
    rcases h : dumbstep l with - | ⟨m, rest⟩
    · rw [(dumbstep_none l).mp h, dumbselect_nil]
      simp
    · rw [dumbselect_succ k l m rest h]
      have hmem : ∀ z ∈ dumbselect k rest, m.1 ≤ z.1 := by
        intro z hz
        exact dumbstep_min l m rest h z
          ((dumbstep_perm l m rest h).symm.subset (List.mem_cons_of_mem m
            ((dumbselect_perm k rest).subset hz)))
      refine ⟨?_, ?_⟩
      · rw [List.take_succ_cons]
        refine List.sorted_cons.mpr ⟨?_, (ih rest).1⟩
        intro b hb
        exact hmem b (List.mem_of_mem_take hb)
      · intro a ha b hb
        rw [List.take_succ_cons] at ha
        rw [List.drop_succ_cons] at hb
        rcases List.mem_cons.mp ha with rfl | ha
        · exact hmem b (List.mem_of_mem_drop hb)
        · exact (ih rest).2 a ha b hb

/-- Selection iterations beyond the first `k` do not change the first
`k` slots. -/
theorem dumbselect_take_stable (k j : ℕ) (l : List (ℚ × ℕ)) :
    (dumbselect (k + j) l).take k = (dumbselect k l).take k := by
  induction k generalizing l j with
  | zero => simp
  | succ k ih =>
    rcases h : dumbstep l with - | ⟨m, rest⟩
    · rw [(dumbstep_none l).mp h, dumbselect_nil, dumbselect_nil]
    · have : k + 1 + j = (k + j) + 1 := by omega
      rw [this, dumbselect_succ (k + j) l m rest h, dumbselect_succ k l m rest h,
        List.take_succ_cons, List.take_succ_cons, ih j rest]

theorem negIdxPairs_length (sims : List ℚ) (i : ℕ) :
    (negIdxPairs sims i).length = sims.length := by
  induction sims generalizing i with
  | nil => rfl
  | cons s rest ih => simp [negIdxPairs, ih]

/-- Every tracked pair carries an in-range original index. -/
theorem negIdxPairs_snd_lt (sims : List ℚ) (i : ℕ) :
    ∀ p ∈ negIdxPairs sims i, p.2 < i + sims.length := by
  induction sims generalizing i with
  | nil => simp [negIdxPairs]
  | cons s rest ih =>
    intro p hp
    rcases List.mem_cons.mp hp with rfl | hp
    · simp
    · have := ih (i + 1) p hp
      simp only [List.length_cons]
      omega

/-- Every tracked pair is the negation of the sim at its index. -/
theorem negIdxPairs_val (sims : List ℚ) (i : ℕ) :
    ∀ p ∈ negIdxPairs sims i, ∃ j, sims.get? j = some (-p.1) ∧ p.2 = i + j := by
  induction sims generalizing i with
  | nil => simp [negIdxPairs]
  | cons s rest ih =>
    intro p hp
    rcases List.mem_cons.mp hp with rfl | hp
    · exact ⟨0, by simp, by simp⟩
    · obtain ⟨j, hj1, hj2⟩ := ih (i + 1) p hp
      exact ⟨j + 1, by simpa using hj1, by omega⟩

/-- Conversely, each sim appears among the tracked pairs. -/
theorem negIdxPairs_mem (sims : List ℚ) (i j : ℕ) (s : ℚ) (h : sims.get? j = some s) :
    (-s, i + j) ∈ negIdxPairs sims i := by
  induction sims generalizing i j with
  | nil => simp at h
  | cons a rest ih =>
    cases j with
    | zero =>
      simp only [List.get?] at h
      injection h with h
      subst h
      simp [negIdxPairs]
    | succ j =>
      simp only [List.get?] at h
      have := ih (i + 1) j h
      have hadd : i + (j + 1) = (i + 1) + j := by omega
      rw [hadd]
      exact List.mem_cons_of_mem _ this

/-- Pure form of the result-building loop, defined when every index is
in range (used to state and prove facts about `buildResults`). -/
def resultsOf (metas : List M) (d : M) : ℕ → List (ℚ × ℕ) → List (MatchResult M)
  | _, [] => []
  | r, p :: rest => ⟨r + 1, -p.1, metas.getD p.2 d⟩ :: resultsOf metas d (r + 1) rest

theorem buildResults_eq (metas : List M) (d : M) (r : ℕ) (idx : List (ℚ × ℕ))
    (h : ∀ p ∈ idx, p.2 < metas.length) :
    buildResults metas r idx = .ok (resultsOf metas d r idx) := by
  induction idx generalizing r with
  | nil => rfl
  | cons p rest ih =>
    have hp : p.2 < metas.length := h p (List.mem_cons_self p rest)
    have hrest : ∀ z ∈ rest, z.2 < metas.length := fun z hz => h z (List.mem_cons_of_mem p hz)
    simp [buildResults, resultsOf, ih (r + 1) hrest, List.getElem?_eq_getElem hp,
      List.getD_eq_getElem metas d hp]

theorem resultsOf_length (metas : List M) (d : M) (r : ℕ) (idx : List (ℚ × ℕ)) :
    (resultsOf metas d r idx).length = idx.length := by
  induction idx generalizing r with
  | nil => rfl
  | cons p rest ih => simp [resultsOf, ih]

theorem resultsOf_scores (metas : List M) (d : M) (r : ℕ) (idx : List (ℚ × ℕ)) :
    (resultsOf metas d r idx).map (fun e => e.score) = idx.map (fun p => -p.1) := by
  induction idx generalizing r with
  | nil => rfl
  | cons p rest ih => simp [resultsOf, ih]

/-- On an index whose clamped K is at most the row count (and with at
least one row), the argpartition/argsort pipeline of `search_core`
reduces to the first `topk2` slots of the selection loop: the selected
prefix is already sorted, so the argsort refinement is the identity. -/
theorem search_core_eq (metas : List M) (sims : List ℚ) (topk2 : ℕ)
    (h1 : 1 ≤ sims.length) (h2 : topk2 ≤ sims.length) :
    search_core metas sims topk2 =
      buildResults metas 0 ((dumbselect topk2 (negIdxPairs sims 0)).take topk2) := by
  rcases Nat.eq_zero_or_pos topk2 with h0 | h0
  · subst h0
    have hcond : ¬ (((if ((0 : ℕ) : ℤ) - 1 < 0 then ((0 : ℕ) : ℤ) - 1 + (sims.length : ℤ)
        else ((0 : ℕ) : ℤ) - 1) < 0) ∨
        ((sims.length : ℤ) ≤ (if ((0 : ℕ) : ℤ) - 1 < 0 then ((0 : ℕ) : ℤ) - 1 + (sims.length : ℤ)
        else ((0 : ℕ) : ℤ) - 1))) := by
      split_ifs with hh
      · omega
      · omega
    simp only [search_core, if_neg hcond, List.take_zero, argsortPairs, List.insertionSort]
  · have hif : (if ((topk2 : ℤ) - 1 < 0) then (topk2 : ℤ) - 1 + (sims.length : ℤ)
        else (topk2 : ℤ) - 1) = (topk2 : ℤ) - 1 := by
      rw [if_neg]
      omega
    have hcond : ¬ ((((topk2 : ℤ) - 1) < 0) ∨ ((sims.length : ℤ) ≤ (topk2 : ℤ) - 1)) := by
      omega
    have htn : ((topk2 : ℤ) - 1).toNat + 1 = topk2 := by omega
    simp only [search_core, hif, if_neg hcond, htn, argsortPairs]
    rw [List.Sorted.insertionSort_eq (dumbselect_take_spec topk2 (negIdxPairs sims 0)).1]

/-- With a 0-row sims array every clamped K makes `np.argpartition`
raise: a negative `kth` stays negative after adding `n = 0`, and a
nonnegative one is at least `n = 0`. -/
theorem search_core_empty (metas : List M) (topk2 : ℕ) :
    search_core metas [] topk2 = .error SearchError.kthOutOfBounds := by
  simp only [search_core, List.length_nil, Nat.cast_zero]
  rw [if_pos]
  split_ifs with hh
  · omega
  · omega

/-- On an aligned, nonempty index, `match_image` of src/visual_scan.py
reduces to ranking the first `min topk N` slots of the selection loop. -/
theorem match_image_eq (q : List ℚ) (vecs : List (List ℚ)) (metas : List M) (topk : ℕ)
    (halign : metas.length = vecs.length) (h1 : 1 ≤ vecs.length) :
    match_image q vecs metas topk =
      buildResults metas 0 ((dumbselect (min topk vecs.length)
        (negIdxPairs (vecs.map (fun v => dot v q)) 0)).take (min topk vecs.length)) := by
  have hni : ¬ (metas.length ≠ vecs.length) := by simp [halign]
  simp only [match_image, load_index, if_neg hni]
  have hlen : (vecs.map (fun v => dot v q)).length = vecs.length := List.length_map _ _
  have htop : (if topk > (vecs.map (fun v => dot v q)).length
      then (vecs.map (fun v => dot v q)).length else topk) = min topk vecs.length := by
    rw [hlen]
    split_ifs with hh
    · omega
    · omega
  rw [htop]
  exact search_core_eq metas _ _ (by rw [hlen]; exact h1) (by rw [hlen]; exact Nat.min_le_right _ _)

/-- On a nonempty index, `match_image` of src/instant_price_match.py
reduces to exactly the same ranking (it clamps with `min` directly). -/
theorem match_image_ipm_eq (q : List ℚ) (vecs : List (List ℚ)) (metas : List M) (topk : ℕ)
    (h1 : 1 ≤ vecs.length) :
    match_image_ipm q vecs metas topk =
      buildResults metas 0 ((dumbselect (min topk vecs.length)
        (negIdxPairs (vecs.map (fun v => dot v q)) 0)).take (min topk vecs.length)) := by
  have hlen : (vecs.map (fun v => dot v q)).length = vecs.length := List.length_map _ _
  have hne : ¬ (vecs.length = 0) := by omega
  simp only [match_image_ipm, hlen, if_neg hne]
  exact search_core_eq metas _ (min topk vecs.length)
    (by rw [hlen]; exact h1) (by rw [hlen]; exact Nat.min_le_right _ _)

/-- The selected slots all carry in-range row indices. -/
theorem take_dumbselect_snd_lt (sims : List ℚ) (k j : ℕ) :
    ∀ p ∈ (dumbselect k (negIdxPairs sims 0)).take j, p.2 < sims.length := by
  intro p hp
  have hmem : p ∈ negIdxPairs sims 0 :=
    (dumbselect_perm k (negIdxPairs sims 0)).subset (List.mem_of_mem_take hp)
  have := negIdxPairs_snd_lt sims 0 p hmem
  omega

/-- C2: on every aligned index with at least one row, and for every
requested K, both search implementations return `Except.ok` with exactly
`min K N` ranked results — no error when K exceeds N, and no padding
(indeed both return the same list). -/
theorem match_image_length_min (q : List ℚ) (vecs : List (List ℚ)) (metas : List M)
    (k : ℕ) (halign : metas.length = vecs.length) (h1 : 1 ≤ vecs.length) :
    ∃ out, match_image q vecs metas k = .ok out ∧
      match_image_ipm q vecs metas k = .ok out ∧ out.length = min k vecs.length := by
  have hne : metas ≠ [] := by
    intro hc
    rw [hc] at halign
    simp at halign
    omega
  have hb : ∀ p ∈ (dumbselect (min k vecs.length)
      (negIdxPairs (vecs.map (fun v => dot v q)) 0)).take (min k vecs.length),
      p.2 < metas.length := by
    intro p hp
    have := take_dumbselect_snd_lt (vecs.map (fun v => dot v q)) _ _ p hp
    have hlen : (vecs.map (fun v => dot v q)).length = vecs.length := List.length_map _ _
    omega
  refine ⟨resultsOf metas (metas.head hne) 0
    ((dumbselect (min k vecs.length)
      (negIdxPairs (vecs.map (fun v => dot v q)) 0)).take (min k vecs.length)), ?_, ?_, ?_⟩
  · rw [match_image_eq q vecs metas k halign h1]
    exact buildResults_eq metas _ 0 _ hb
  · rw [match_image_ipm_eq q vecs metas k h1]
    exact buildResults_eq metas _ 0 _ hb
  · rw [resultsOf_length, List.length_take, dumbselect_length, negIdxPairs_length,
      List.length_map]
    omega

/-- C2 witness: querying a 2-row index with K = 5 returns both rows. -/
theorem match_image_length_min_witness :
    ∃ out, match_image [1, 0] [[1, 0], [2, 0]] ([5, 6] : List ℕ) 5 = .ok out ∧
      match_image_ipm [1, 0] [[1, 0], [2, 0]] ([5, 6] : List ℕ) 5 = .ok out ∧
      out.length = min 5 2 :=
  match_image_length_min [1, 0] [[1, 0], [2, 0]] [5, 6] 5 rfl (by decide)

/-- Sortedness of the visual_scan search: every ranked list
match_image of src/visual_scan.py returns is sorted in non-increasing
order of similarity score. -/
theorem match_image_scores_sorted (q : List ℚ) (vecs : List (List ℚ)) (metas : List M)
    (topk : ℕ) (out : List (MatchResult M))
    (h : match_image q vecs metas topk = .ok out) :
    (out.map (fun e => e.score)).Sorted (fun a b : ℚ => b ≤ a) := by
  by_cases halign : metas.length = vecs.length
  · rcases Nat.eq_zero_or_pos vecs.length with h0 | h0
    · exfalso
      have hv : vecs = [] := List.length_eq_zero.mp h0
      subst hv
      have hm : metas = [] := List.length_eq_zero.mp (by omega)
      subst hm
      have herr : match_image q ([] : List (List ℚ)) ([] : List M) topk =
          .error SearchError.kthOutOfBounds := by
        simp only [match_image, load_index, ne_eq, List.length_nil, not_true_eq_false,
          ite_false, if_neg (by omega : ¬ ((0 : ℕ) ≠ 0))]
        exact search_core_empty [] _
      rw [herr] at h
      exact Except.noConfusion h
    · have hne : metas ≠ [] := by
        intro hc
        rw [hc] at halign
        simp at halign
        omega
      rw [match_image_eq q vecs metas topk halign h0] at h
      have hb : ∀ p ∈ (dumbselect (min topk vecs.length)
          (negIdxPairs (vecs.map (fun v => dot v q)) 0)).take (min topk vecs.length),
          p.2 < metas.length := by
        intro p hp
        have := take_dumbselect_snd_lt (vecs.map (fun v => dot v q)) _ _ p hp
        have hlen : (vecs.map (fun v => dot v q)).length = vecs.length := List.length_map _ _
        omega
      rw [buildResults_eq metas (metas.head hne) 0 _ hb] at h
      injection h with h
      subst h
      rw [resultsOf_scores, List.Sorted, List.pairwise_map]
      refine List.Pairwise.imp ?_
        (dumbselect_take_spec (min topk vecs.length) (negIdxPairs (vecs.map (fun v => dot v q)) 0)).1
      intro a b hab
      exact neg_le_neg hab
  · exfalso
    simp [match_image, load_index, halign] at h

/-- The sorted-score conclusion of the previous lemma at a concrete
search. -/
theorem match_image_scores_sorted_witness :
    (([⟨1, 2, 2⟩, ⟨2, 1, 1⟩, ⟨3, 1, 0⟩] : List (MatchResult ℕ)).map
      (fun e => e.score)).Sorted (fun a b : ℚ => b ≤ a) :=
  match_image_scores_sorted [1, 0] [[1, 0], [1, 0], [2, 0]] [0, 1, 2] 3 _
    (by norm_num [match_image, load_index, search_core, dumbselect, dumbstep, splitAtMin,
      negIdxPairs, argsortPairs, buildResults, keyLE, dot, List.insertionSort,
      List.orderedInsert])

/-- C1 counterexample: with metadata records chosen as the row numbers,
the index rows `[1,0], [1,0], [2,0]` and the query `[1,0]` give the tied
rows 0 and 1 (both score 1) in the order row 1 before row 0: numpy
DUMBSELECT swaps the maximum-similarity row 2 into the front slot,
displacing row 0 behind row 1.  The stable (claimed) order — row 0
before row 1 — is refuted. -/
theorem match_image_ties_not_in_row_order :
    match_image [1, 0] [[1, 0], [1, 0], [2, 0]] ([0, 1, 2] : List ℕ) 3 =
      .ok [⟨1, 2, 2⟩, ⟨2, 1, 1⟩, ⟨3, 1, 0⟩] ∧
    match_image [1, 0] [[1, 0], [1, 0], [2, 0]] ([0, 1, 2] : List ℕ) 3 ≠
      .ok [⟨1, 2, 2⟩, ⟨2, 1, 0⟩, ⟨3, 1, 1⟩] := by
  have hrun : match_image [1, 0] [[1, 0], [1, 0], [2, 0]] ([0, 1, 2] : List ℕ) 3 =
      .ok [⟨1, 2, 2⟩, ⟨2, 1, 1⟩, ⟨3, 1, 0⟩] := by
    norm_num [match_image, load_index, search_core, dumbselect, dumbstep, splitAtMin,
      negIdxPairs, argsortPairs, buildResults, keyLE, dot, List.insertionSort,
      List.orderedInsert]
  refine ⟨hrun, ?_⟩
  rw [hrun]
  intro hc
  injection hc with hc
  simp [MatchResult.mk.injEq] at hc

/-- C3 (the spec is the intent; src/visual_scan.py has the bug): on a
0-row index, `match_image` of src/instant_price_match.py returns an
empty list as the spec requires, but `match_image` of
src/visual_scan.py has no empty guard and `np.argpartition(-sims, topk-1)`
raises `ValueError: kth out of bounds` for every query and every K. -/
theorem match_image_empty_index (q : List ℚ) (k : ℕ) :
    match_image q ([] : List (List ℚ)) ([] : List M) k =
        .error SearchError.kthOutOfBounds ∧
      match_image_ipm q ([] : List (List ℚ)) ([] : List M) k = .ok [] := by
  constructor
  · simp only [match_image, load_index, ne_eq, List.length_nil,
      if_neg (by omega : ¬ ((0 : ℕ) ≠ 0))]
    exact search_core_empty [] _
  · simp [match_image_ipm]

/-- Cauchy-Schwarz style bound for equal-length rational vectors. -/
theorem two_dot_le (v w : List ℚ) (h : v.length = w.length) :
    2 * dot v w ≤ dot v v + dot w w := by
  induction v generalizing w with
  | nil =>
    cases w with
    | nil => simp [dot]
    | cons b w => simp at h
  | cons a v ih =>
    cases w with
    | nil => simp at h
    | cons b w =>
      have hlen : v.length = w.length := by simpa using h
      have h1 := ih w hlen
      have h2 : 2 * a * b ≤ a ^ 2 + b ^ 2 := two_mul_le_add_sq a b
      simp only [dot, List.zipWith_cons_cons, List.sum_cons] at h1 ⊢
      nlinarith [h1, h2]

/-- Equality case: two equal-length vectors whose dot products satisfy
the equality case of Cauchy-Schwarz are equal. -/
theorem eq_of_unit_dot (v w : List ℚ) (h : v.length = w.length)
    (hdot : dot v v + dot w w = 2 * dot v w) : v = w := by
  induction v generalizing w with
  | nil =>
    cases w with
    | nil => rfl
    | cons b w => simp at h
  | cons a v ih =>
    cases w with
    | nil => simp at h
    | cons b w =>
      have hlen : v.length = w.length := by simpa using h
      have h1 := two_dot_le v w hlen
      simp only [dot, List.zipWith_cons_cons, List.sum_cons] at hdot h1
      have hab : a = b := by nlinarith [sq_nonneg (a - b), h1, hdot]
      subst hab
      have htail : dot v v + dot w w = 2 * dot v w := by
        simp only [dot] at h1 ⊢
        nlinarith [hdot]
      rw [ih w hlen htail]

/-- C4 (amended): on an index of unit vectors, a query equal to index
row `i` gets a rank-1 result with similarity score exactly 1 whose
metadata names a row whose vector equals the query (row `i` itself
whenever no other row equals the query; with duplicated rows the
earliest equal row wins, see the counterexample).  Metadata records are
taken to be the row numbers so that the result identifies its row. -/
theorem match_image_self_match (q : List ℚ) (vecs : List (List ℚ)) (i k : ℕ)
    (hq : normSq q = 1) (hrows : ∀ v ∈ vecs, normSq v = 1 ∧ v.length = q.length)
    (hi : vecs.get? i = some q) (hk : 1 ≤ k) :
    ∃ j out, match_image q vecs (List.range vecs.length) k = .ok out ∧
      out.head? = some ⟨1, 1, j⟩ ∧ vecs.get? j = some q := by
  obtain ⟨hin, hgeti⟩ := List.get?_eq_some.mp hi
  have h1 : 1 ≤ vecs.length := by omega
  have hslen : (vecs.map (fun v => dot v q)).length = vecs.length := List.length_map _ _
  have hqq : dot q q = 1 := hq
  have hsim_le : ∀ s ∈ vecs.map (fun v => dot v q), s ≤ 1 := by
    intro s hs
    rw [List.mem_map] at hs
    obtain ⟨v, hv, rfl⟩ := hs
    obtain ⟨hnv, hlv⟩ := hrows v hv
    have hvv : dot v v = 1 := hnv
    have hcs := two_dot_le v q hlv
    linarith
  have hsimi : (vecs.map (fun v => dot v q)).get? i = some 1 := by
    rw [List.get?_map, hi, Option.map_some', hqq]
  rw [match_image_eq q vecs (List.range vecs.length) k (List.length_range _) h1]
  obtain ⟨k3, hk3⟩ : ∃ k3, min k vecs.length = k3 + 1 := ⟨min k vecs.length - 1, by omega⟩
  have hpairs_len : (negIdxPairs (vecs.map (fun v => dot v q)) 0).length = vecs.length := by
    rw [negIdxPairs_length, hslen]
  rcases hstep : dumbstep (negIdxPairs (vecs.map (fun v => dot v q)) 0) with _ | ⟨m, rest0⟩
  · exfalso
    have := (dumbstep_none _).mp hstep
    rw [this] at hpairs_len
    simp at hpairs_len
    omega
  · rw [hk3, dumbselect_succ k3 _ m rest0 hstep, List.take_succ_cons]
    have hmmem : m ∈ negIdxPairs (vecs.map (fun v => dot v q)) 0 :=
      (dumbstep_perm _ m rest0 hstep).symm.subset (List.mem_cons_self _ _)
    obtain ⟨j, hj1, hj2⟩ := negIdxPairs_val _ 0 m hmmem
    have hmin := dumbstep_min _ m rest0 hstep
    have hmi : (-(1 : ℚ), 0 + i) ∈ negIdxPairs (vecs.map (fun v => dot v q)) 0 :=
      negIdxPairs_mem _ 0 i 1 hsimi
    have hle1 : m.1 ≤ -1 := by simpa using hmin _ hmi
    have hge : -m.1 ≤ 1 := hsim_le _ (List.get?_mem hj1)
    have hm1 : m.1 = -1 := by linarith
    have hj1' : (vecs.map (fun v => dot v q)).get? j = some 1 := by
      rw [hj1, hm1]
      norm_num
    obtain ⟨hjlt, -⟩ := List.get?_eq_some.mp hj1'
    rw [hslen] at hjlt
    obtain ⟨v, hv, hvq⟩ : ∃ v, vecs.get? j = some v ∧ dot v q = 1 := by
      rw [List.get?_map] at hj1'
      cases hvv : vecs.get? j with
      | none => rw [hvv] at hj1'; simp at hj1'
      | some v =>
        rw [hvv] at hj1'
        simp only [Option.map_some', Option.some.injEq] at hj1'
        exact ⟨v, rfl, hj1'⟩
    have hveq : v = q := by
      obtain ⟨hnv, hlv⟩ := hrows v (List.get?_mem hv)
      have hvv1 : dot v v = 1 := hnv
      exact eq_of_unit_dot v q hlv (by rw [hvv1, hqq, hvq]; norm_num)
    have hb : ∀ p ∈ m :: (dumbselect k3 rest0).take k3,
        p.2 < (List.range vecs.length).length := by
      intro p hp
      rw [List.length_range]
      rcases List.mem_cons.mp hp with rfl | hp
      · omega
      · have hpr : p ∈ rest0 := (dumbselect_perm k3 rest0).subset (List.mem_of_mem_take hp)
        have hppairs : p ∈ negIdxPairs (vecs.map (fun v => dot v q)) 0 :=
          (dumbstep_perm _ m rest0 hstep).symm.subset (List.mem_cons_of_mem m hpr)
        have := negIdxPairs_snd_lt _ 0 p hppairs
        omega
    rw [buildResults_eq (List.range vecs.length) 0 0 _ hb]
    refine ⟨j, _, rfl, ?_, ?_⟩
    · simp only [resultsOf, List.head?_cons, Option.some.injEq]
      have hmeta : (List.range vecs.length).getD m.2 0 = j := by
        have hj2' : m.2 = j := by omega
        subst hj2'
        rw [List.getD_eq_getElem _ 0 (by rw [List.length_range]; exact hjlt)]
        simp
      rw [hmeta, hm1]
      norm_num
    · rw [← hveq]
      exact hv

/-- C4 witness: a 2-row index of distinct unit vectors, query equal to
row 1: the self match surfaces at rank 1 with score exactly 1. -/
theorem match_image_self_match_witness :
    ∃ j out, match_image [1, 0] ([[0, 1], [1, 0]] : List (List ℚ))
        (List.range ([[0, 1], [1, 0]] : List (List ℚ)).length) 2 = .ok out ∧
      out.head? = some ⟨1, 1, j⟩ ∧
      ([[0, 1], [1, 0]] : List (List ℚ)).get? j = some [1, 0] :=
  match_image_self_match [1, 0] [[0, 1], [1, 0]] 1 2
    (by norm_num [normSq, dot])
    (by
      intro v hv
      rcases List.mem_cons.mp hv with rfl | hv
      · norm_num [normSq, dot]
      · rcases List.mem_cons.mp hv with rfl | hv
        · norm_num [normSq, dot]
        · simp at hv)
    rfl (by omega)

/-- C4 counterexample: the claim as stated fails when the index holds
duplicate rows.  Index rows 0 and 1 are both `[1,0]`; with the query
`[1,0]` (equal to row 1) the rank-1 result is row 0, not row 1 — the
selection scan keeps the earliest index among ties. -/
theorem match_image_duplicate_row_not_rank_one :
    match_image [1, 0] [[1, 0], [1, 0]] ([0, 1] : List ℕ) 2 =
        .ok [⟨1, 1, 0⟩, ⟨2, 1, 1⟩] ∧
      ¬ ∃ rest, match_image [1, 0] [[1, 0], [1, 0]] ([0, 1] : List ℕ) 2 =
        .ok (⟨1, 1, 1⟩ :: rest) := by
  have hrun : match_image [1, 0] [[1, 0], [1, 0]] ([0, 1] : List ℕ) 2 =
      .ok [⟨1, 1, 0⟩, ⟨2, 1, 1⟩] := by
    norm_num [match_image, load_index, search_core, dumbselect, dumbstep, splitAtMin,
      negIdxPairs, argsortPairs, buildResults, keyLE, dot, List.insertionSort,
      List.orderedInsert]
  refine ⟨hrun, ?_⟩
  rintro ⟨rest, hc⟩
  rw [hrun] at hc
  injection hc with hc
  rw [List.cons_eq_cons] at hc
  simp [MatchResult.mk.injEq] at hc

/-- The result lists built over two index orderings agree whenever the
per-slot (negated score, metadata) readings agree. -/
theorem resultsOf_congr (metasA metasB : List M) (d : M) (r : ℕ)
    (idxA idxB : List (ℚ × ℕ))
    (h : idxA.map (fun p => (-p.1, metasA.getD p.2 d)) =
      idxB.map (fun p => (-p.1, metasB.getD p.2 d))) :
    resultsOf metasA d r idxA = resultsOf metasB d r idxB := by
  induction idxA generalizing idxB r with
  | nil =>
    cases idxB with
    | nil => rfl
    | cons p rest => simp at h
  | cons p rest ih =>
    cases idxB with
    | nil => simp at h
    | cons p2 rest2 =>
      simp only [List.map_cons, List.cons.injEq, Prod.mk.injEq] at h
      obtain ⟨⟨hs, hm⟩, htail⟩ := h
      simp only [resultsOf, hs, hm, ih (r + 1) rest2 htail]

/-- Reading the tracked pairs back through the metadata table recovers
the zipped (sim, metadata) rows. -/
theorem negIdxPairs_map_zip (sims : List ℚ) (metas : List M) (d : M) (i : ℕ)
    (h : metas.length = i + sims.length) :
    (negIdxPairs sims i).map (fun p => (-p.1, metas.getD p.2 d)) =
      sims.zip (metas.drop i) := by
  induction sims generalizing i with
  | nil => simp [negIdxPairs]
  | cons s rest ih =>
    have hlt : i < metas.length := by simp at h; omega
    have hdrop : metas.drop i = metas.getD i d :: metas.drop (i + 1) := by
      rw [List.getD_eq_getElem metas d hlt]
      exact List.drop_eq_getElem_cons hlt
    simp only [negIdxPairs, List.map_cons, neg_neg, hdrop, List.zip_cons_cons]
    rw [ih (i + 1) (by simp at h ⊢; omega)]

/-- C9 (amended): when all similarity scores are pairwise distinct,
search is permutation-invariant in the index rows: permuting vector
rows and metadata rows identically leaves the returned ranked list
unchanged.  (With tied scores this fails, see the counterexample: tie
order follows array position, not row identity.) -/
theorem match_image_permutation_invariant (q : List ℚ) (rowsA rowsB : List (List ℚ × M))
    (k : ℕ) (hperm : rowsA.Perm rowsB)
    (hdist : (rowsA.map (fun r => dot r.1 q)).Nodup) :
    match_image q (rowsA.map Prod.fst) (rowsA.map Prod.snd) k =
      match_image q (rowsB.map Prod.fst) (rowsB.map Prod.snd) k := by
  have hlenAB : rowsA.length = rowsB.length := hperm.length_eq
  rcases Nat.eq_zero_or_pos rowsA.length with h0 | h0
  · have hA : rowsA = [] := List.length_eq_zero.mp h0
    subst hA
    rw [hperm.symm.eq_nil]
  have hneA : rowsA ≠ [] := by
    intro hc
    rw [hc] at h0
    simp at h0
  have hd : (rowsA.map Prod.snd) ≠ [] := by
    intro hc
    exact hneA (List.map_eq_nil.mp hc)
  set d := (rowsA.map Prod.snd).head hd with hdd
  have hlenA : (rowsA.map Prod.snd).length = (rowsA.map Prod.fst).length := by simp
  have hlenB : (rowsB.map Prod.snd).length = (rowsB.map Prod.fst).length := by simp
  have h1A : 1 ≤ (rowsA.map Prod.fst).length := by simp; omega
  have h1B : 1 ≤ (rowsB.map Prod.fst).length := by simp; omega
  rw [match_image_eq q _ _ k hlenA h1A, match_image_eq q _ _ k hlenB h1B]
  have hsimsA : (rowsA.map Prod.fst).map (fun v => dot v q) =
      rowsA.map (fun r => dot r.1 q) := by rw [List.map_map]; rfl
  have hsimsB : (rowsB.map Prod.fst).map (fun v => dot v q) =
      rowsB.map (fun r => dot r.1 q) := by rw [List.map_map]; rfl
  rw [hsimsA, hsimsB]
  have hlenfA : (rowsA.map Prod.fst).length = rowsA.length := by simp
  have hlenfB : (rowsB.map Prod.fst).length = rowsB.length := by simp
  have hkk : min k (rowsB.map Prod.fst).length = min k (rowsA.map Prod.fst).length := by
    rw [hlenfA, hlenfB, hlenAB]
  rw [hkk]
  -- the fully selected, metadata-read sequences for each ordering
  have key : ∀ (rows : List (List ℚ × M)),
      (rows.map (fun r => dot r.1 q)).Nodup →
      ((dumbselect rows.length (negIdxPairs (rows.map (fun r => dot r.1 q)) 0)).map
          (fun p => (-p.1, (rows.map Prod.snd).getD p.2 d))).Perm
        (rows.map (fun r => (dot r.1 q, r.2))) ∧
      ((dumbselect rows.length (negIdxPairs (rows.map (fun r => dot r.1 q)) 0)).map
          (fun p => (-p.1, (rows.map Prod.snd).getD p.2 d))).Pairwise
        (fun a b => b.1 < a.1) := by
    intro rows hnd
    have hslen : (rows.map (fun r => dot r.1 q)).length = rows.length := by simp
    have hdlen : (dumbselect rows.length
        (negIdxPairs (rows.map (fun r => dot r.1 q)) 0)).length = rows.length := by
      rw [dumbselect_length, negIdxPairs_length, hslen]
    have hzip : (negIdxPairs (rows.map (fun r => dot r.1 q)) 0).map
        (fun p => (-p.1, (rows.map Prod.snd).getD p.2 d)) =
        (rows.map (fun r => dot r.1 q)).zip (rows.map Prod.snd) := by
      have := negIdxPairs_map_zip (rows.map (fun r => dot r.1 q))
        (rows.map Prod.snd) d 0 (by simp)
      simpa using this
    have hzip2 : (rows.map (fun r => dot r.1 q)).zip (rows.map Prod.snd) =
        rows.map (fun r => (dot r.1 q, r.2)) := List.zip_map' _ _ _
    have hperm1 : ((dumbselect rows.length
        (negIdxPairs (rows.map (fun r => dot r.1 q)) 0)).map
        (fun p => (-p.1, (rows.map Prod.snd).getD p.2 d))).Perm
        (rows.map (fun r => (dot r.1 q, r.2))) := by
      rw [← hzip2, ← hzip]
      exact (dumbselect_perm rows.length _).map _
    refine ⟨hperm1, ?_⟩
    have hsorted : (dumbselect rows.length
        (negIdxPairs (rows.map (fun r => dot r.1 q)) 0)).Sorted keyLE := by
      have := (dumbselect_take_spec rows.length
        (negIdxPairs (rows.map (fun r => dot r.1 q)) 0)).1
      rwa [List.take_of_length_le (by rw [hdlen])] at this
    have hsorted2 : ((dumbselect rows.length
        (negIdxPairs (rows.map (fun r => dot r.1 q)) 0)).map
        (fun p => (-p.1, (rows.map Prod.snd).getD p.2 d))).Pairwise
        (fun a b => b.1 ≤ a.1) := by
      rw [List.pairwise_map]
      exact hsorted.imp (fun hab => neg_le_neg hab)
    have hmapfst : (((dumbselect rows.length
        (negIdxPairs (rows.map (fun r => dot r.1 q)) 0)).map
        (fun p => (-p.1, (rows.map Prod.snd).getD p.2 d))).map Prod.fst).Nodup := by
      refine (List.Perm.nodup_iff (hperm1.map Prod.fst)).mpr ?_
      have hmm : (rows.map (fun r => (dot r.1 q, r.2))).map Prod.fst =
          rows.map (fun r => dot r.1 q) := by
        rw [List.map_map]
        rfl
      rw [hmm]
      exact hnd
    have hnd2 : ((dumbselect rows.length
        (negIdxPairs (rows.map (fun r => dot r.1 q)) 0)).map
        (fun p => (-p.1, (rows.map Prod.snd).getD p.2 d))).Pairwise
        (fun a b => a.1 ≠ b.1) := by
      have := List.pairwise_map.mp hmapfst
      exact this
    exact (hsorted2.and hnd2).imp (fun hab => lt_of_le_of_ne hab.1 (Ne.symm hab.2))
  have hdistB : (rowsB.map (fun r => dot r.1 q)).Nodup :=
    ((hperm.map (fun r => dot r.1 q)).nodup_iff).mp hdist
  obtain ⟨hpermA, hsortA⟩ := key rowsA hdist
  obtain ⟨hpermB, hsortB⟩ := key rowsB hdistB
  haveI : IsAntisymm (ℚ × M) (fun a b => b.1 < a.1) :=
    ⟨fun a b ha hb => absurd (lt_trans ha hb) (lt_irrefl _)⟩
  have hMAB := List.eq_of_perm_of_sorted
    (hpermA.trans ((hperm.map (fun r => (dot r.1 q, r.2))).trans hpermB.symm)) hsortA hsortB
  -- bounds, then transport the equality through result building
  have hbA : ∀ p ∈ (dumbselect (min k (rowsA.map Prod.fst).length)
      (negIdxPairs (rowsA.map (fun r => dot r.1 q)) 0)).take
        (min k (rowsA.map Prod.fst).length),
      p.2 < (rowsA.map Prod.snd).length := by
    intro p hp
    have := take_dumbselect_snd_lt (rowsA.map (fun r => dot r.1 q)) _ _ p hp
    simp only [List.length_map] at this ⊢
    omega
  have hbB : ∀ p ∈ (dumbselect (min k (rowsA.map Prod.fst).length)
      (negIdxPairs (rowsB.map (fun r => dot r.1 q)) 0)).take
        (min k (rowsA.map Prod.fst).length),
      p.2 < (rowsB.map Prod.snd).length := by
    intro p hp
    have := take_dumbselect_snd_lt (rowsB.map (fun r => dot r.1 q)) _ _ p hp
    simp only [List.length_map] at this ⊢
    omega
  rw [buildResults_eq _ d 0 _ hbA, buildResults_eq _ d 0 _ hbB]
  refine congrArg Except.ok (resultsOf_congr _ _ d 0 _ _ ?_)
  have hk2A : min k (rowsA.map Prod.fst).length ≤ rowsA.length := by
    rw [hlenfA]
    exact Nat.min_le_right _ _
  have hstabA : (dumbselect (min k (rowsA.map Prod.fst).length)
      (negIdxPairs (rowsA.map (fun r => dot r.1 q)) 0)).take
        (min k (rowsA.map Prod.fst).length) =
      (dumbselect rowsA.length (negIdxPairs (rowsA.map (fun r => dot r.1 q)) 0)).take
        (min k (rowsA.map Prod.fst).length) := by
    have hsplit : min k (rowsA.map Prod.fst).length +
        (rowsA.length - min k (rowsA.map Prod.fst).length) = rowsA.length := by omega
    rw [← hsplit, dumbselect_take_stable]
  have hstabB : (dumbselect (min k (rowsA.map Prod.fst).length)
      (negIdxPairs (rowsB.map (fun r => dot r.1 q)) 0)).take
        (min k (rowsA.map Prod.fst).length) =
      (dumbselect rowsB.length (negIdxPairs (rowsB.map (fun r => dot r.1 q)) 0)).take
        (min k (rowsA.map Prod.fst).length) := by
    have hsplit : min k (rowsA.map Prod.fst).length +
        (rowsB.length - min k (rowsA.map Prod.fst).length) = rowsB.length := by omega
    rw [← hsplit, dumbselect_take_stable]
  rw [hstabA, hstabB, List.map_take, List.map_take, hMAB]

/-- C9 witness: distinct scores, rows swapped — identical ranked lists. -/
theorem match_image_permutation_invariant_witness :
    match_image [1, 0]
        (([([2, 0], 10), ([1, 0], 20)] : List (List ℚ × ℕ)).map Prod.fst)
        (([([2, 0], 10), ([1, 0], 20)] : List (List ℚ × ℕ)).map Prod.snd) 2 =
      match_image [1, 0]
        (([([1, 0], 20), ([2, 0], 10)] : List (List ℚ × ℕ)).map Prod.fst)
        (([([1, 0], 20), ([2, 0], 10)] : List (List ℚ × ℕ)).map Prod.snd) 2 :=
  match_image_permutation_invariant [1, 0] _ _ 2 (List.Perm.swap _ _ _)
    (by norm_num [dot])

/-- C9 counterexample: two rows with the identical vector `[0,1]` (so
permuting the rows leaves the vector array unchanged) but distinct
metadata; swapping the rows swaps which metadata record is ranked
first, so the ranked (score, metadata) list is not
permutation-invariant when scores tie. -/
theorem match_image_not_permutation_invariant :
    match_image [1, 0] [[0, 1], [0, 1]] ([10, 20] : List ℕ) 2 =
        .ok [⟨1, 0, 10⟩, ⟨2, 0, 20⟩] ∧
      match_image [1, 0] [[0, 1], [0, 1]] ([20, 10] : List ℕ) 2 =
        .ok [⟨1, 0, 20⟩, ⟨2, 0, 10⟩] ∧
      ([⟨1, 0, 10⟩, ⟨2, 0, 20⟩] : List (MatchResult ℕ)) ≠
        [⟨1, 0, 20⟩, ⟨2, 0, 10⟩] := by
  refine ⟨?_, ?_, ?_⟩
  · norm_num [match_image, load_index, search_core, dumbselect, dumbstep, splitAtMin,
      negIdxPairs, argsortPairs, buildResults, keyLE, dot, List.insertionSort,
      List.orderedInsert]
  · norm_num [match_image, load_index, search_core, dumbselect, dumbstep, splitAtMin,
      negIdxPairs, argsortPairs, buildResults, keyLE, dot, List.insertionSort,
      List.orderedInsert]
  · intro hc
    rw [List.cons_eq_cons] at hc
    simp [MatchResult.mk.injEq] at hc

/-- One source image queued for embedding: barcode, product name, local
path, and either the unit vector the external CLIP model embeds it to,
or `none` when `Image.open(path).convert("RGB")` raises (corrupt or
unreadable file, skipped by both builders). -/
structure EmbedItem where
  code : String
  name : String
  path : String
  img : Option (List ℚ)

/-- The metadata row both builders append per successfully embedded
image. -/
structure MetaRow where
  barcode : String
  product_name : String
  image_path : String
  deriving DecidableEq

/-- The rows `_flush_batch` contributes to the vector array: one
embedding per batched image, in batch order. -/
def flushRows (batch : List (String × String × List ℚ)) : List (List ℚ) :=
  batch.map (fun b => b.2.2)

/-- The metadata rows src/build_visual_index.py appends on a flush:
`zip(batch_codes, batch_names)` with `image_path` rebuilt as
`IMAGES_DIR / (code + ".jpg")`. -/
def flushMetas (batch : List (String × String × List ℚ)) : List MetaRow :=
  batch.map (fun b => ⟨b.1, b.2.1, "images/" ++ b.1 ++ ".jpg"⟩)

/-- The main loop of run_embed in src/build_visual_index.py: skip
undecodable images, push the decoded image with its code and name onto
the three parallel batch lists (kept in lockstep, modelled zipped), and
flush whenever the batch reaches size `B`.  Returns the accumulated
batch arrays, metadata rows, and the unflushed tail batch. -/
def bviLoop (B : ℕ) :
    List EmbedItem → List (List (List ℚ)) → List MetaRow →
      List (String × String × List ℚ) →
      List (List (List ℚ)) × List MetaRow × List (String × String × List ℚ)
  | [], feats, metas, batch => (feats, metas, batch)
  | it :: rest, feats, metas, batch =>
    match it.img with
    | none => bviLoop B rest feats metas batch
    | some v =>
      let batch2 := batch ++ [(it.code, it.name, v)]
      if B ≤ batch2.length then
        bviLoop B rest (feats ++ [flushRows batch2]) (metas ++ flushMetas batch2) []
      else
        bviLoop B rest feats metas batch2

/-- run_embed from src/build_visual_index.py: no items means nothing to
embed; after the loop the leftover batch is flushed (the explicit tail
flush); if nothing at all was embedded the builder reports and writes
nothing (`none`); otherwise the concatenated feature rows and the
metadata rows are persisted (`some`). -/
def run_embed (items : List EmbedItem) (batch : ℕ) :
    Option (List (List ℚ) × List MetaRow) :=
  if items.isEmpty then none
  else
    let st := bviLoop batch items [] [] []
    let st2 := if st.2.2.isEmpty then (st.1, st.2.1)
      else (st.1 ++ [flushRows st.2.2], st.2.1 ++ flushMetas st.2.2)
    if st2.1.isEmpty then none
    else some (st2.1.join, st2.2)

/-- The metadata rows src/instant_price_match.py appends on a flush:
`(code, name, str(pth))` straight from the batch tuples. -/
def flushMetasIpm (batch : List (String × String × String × List ℚ)) : List MetaRow :=
  batch.map (fun b => ⟨b.1, b.2.1, b.2.2.1⟩)

/-- The main loop of run_embed in src/instant_price_match.py, iterating
`enumerate(items, 1)`.  A decode failure hits `continue`, skipping even
the flush check; a successful decode appends to the batch and flushes
when the batch holds exactly 32 entries or the 1-based position reached
the item count.  There is no tail flush after the loop: a batch left
pending when the final items fail to decode is dropped. -/
def ipmLoop (total : ℕ) :
    List (ℕ × EmbedItem) → List (List (List ℚ)) → List MetaRow →
      List (String × String × String × List ℚ) →
      List (List (List ℚ)) × List MetaRow
  | [], feats, metas, _ => (feats, metas)
  | (i, it) :: rest, feats, metas, batch =>
    match it.img with
    | none => ipmLoop total rest feats metas batch
    | some v =>
      let batch2 := batch ++ [(it.code, it.name, it.path, v)]
      if batch2.length = 32 ∨ i = total then
        ipmLoop total rest (feats ++ [batch2.map (fun b => b.2.2.2)])
          (metas ++ flushMetasIpm batch2) []
      else
        ipmLoop total rest feats metas batch2

/-- run_embed from src/instant_price_match.py: returns `none` only when
no local images were found at all; otherwise it always persists — the
vector array falls back to `np.zeros((0,512))` when nothing embedded,
so a zero-row artifact is written. -/
def run_embed_ipm (items : List EmbedItem) : Option (List (List ℚ) × List MetaRow) :=
  if items.isEmpty then none
  else
    let st := ipmLoop items.length (List.enumFrom 1 items) [] [] []
    some (st.1.join, st.2)

theorem bviLoop_align (B : ℕ) (items : List EmbedItem) (feats : List (List (List ℚ)))
    (metas : List MetaRow) (batch : List (String × String × List ℚ))
    (h : feats.join.length = metas.length) :
    ((bviLoop B items feats metas batch).1.join).length =
      (bviLoop B items feats metas batch).2.1.length := by
  induction items generalizing feats metas batch with
  | nil => exact h
  | cons it rest ih =>
    cases himg : it.img with
    | none => simpa [bviLoop, himg] using ih feats metas batch h
    | some v =>
      simp only [bviLoop, himg]
      split_ifs with hb
      · refine ih _ _ [] ?_
        simp [flushRows, flushMetas, h]
      · exact ih feats metas _ h

theorem ipmLoop_align (total : ℕ) (items : List (ℕ × EmbedItem))
    (feats : List (List (List ℚ))) (metas : List MetaRow)
    (batch : List (String × String × String × List ℚ))
    (h : feats.join.length = metas.length) :
    ((ipmLoop total items feats metas batch).1.join).length =
      (ipmLoop total items feats metas batch).2.length := by
  induction items generalizing feats metas batch with
  | nil => exact h
  | cons p rest ih =>
    rcases p with ⟨i, it⟩
    cases himg : it.img with
    | none => simpa [ipmLoop, himg] using ih feats metas batch h
    | some v =>
      simp only [ipmLoop, himg]
      split_ifs with hb
      · refine ih _ _ [] ?_
        simp [flushMetasIpm, h]
      · exact ih feats metas _ h

/-- C5: after every build that persists artifacts — in either builder,
for every item list (failures included) and any positive batch size —
the saved vector array and the saved metadata table have the same
number of rows. -/
theorem run_embed_alignment (items : List EmbedItem) (B : ℕ)
    (V : List (List ℚ)) (Mrows : List MetaRow) :
    (run_embed items B = some (V, Mrows) → V.length = Mrows.length) ∧
      (run_embed_ipm items = some (V, Mrows) → V.length = Mrows.length) := by
  constructor
  · intro h
    rw [run_embed] at h
    split_ifs at h with hempty
    have ha := bviLoop_align B items [] [] [] rfl
    set st := bviLoop B items [] [] [] with hst
    by_cases htail : st.2.2.isEmpty
    · simp only [htail, if_true] at h
      split_ifs at h with hfe
      injection h with h
      injection h with h1 h2
      rw [← h1, ← h2]
      exact ha
    · simp only [htail, if_false, Bool.false_eq_true] at h
      split_ifs at h with hfe
      injection h with h
      injection h with h1 h2
      rw [← h1, ← h2]
      simp only [List.join_append, List.length_append, List.length_join]
      simp only [List.length_join] at ha
      simp [flushRows, flushMetas, ha]
  · intro h
    rw [run_embed_ipm] at h
    split_ifs at h with hempty
    injection h with h
    injection h with h1 h2
    rw [← h1, ← h2]
    exact ipmLoop_align items.length (List.enumFrom 1 items) [] [] [] rfl

/-- C5 witness: batch size 2, one decode failure in the middle, a tail
flush — three vector rows and three metadata rows either way. -/
theorem run_embed_alignment_witness :
    (([[1], [2], [3]] : List (List ℚ)).length =
        ([⟨"a", "x", "images/a.jpg"⟩, ⟨"c", "z", "images/c.jpg"⟩,
          ⟨"d", "w", "images/d.jpg"⟩] : List MetaRow).length) ∧
      (([[1], [2], [3]] : List (List ℚ)).length =
        ([⟨"a", "x", "pa"⟩, ⟨"c", "z", "pc"⟩, ⟨"d", "w", "pd"⟩] : List MetaRow).length) :=
  ⟨(run_embed_alignment
      [⟨"a", "x", "pa", some [1]⟩, ⟨"b", "y", "pb", none⟩,
        ⟨"c", "z", "pc", some [2]⟩, ⟨"d", "w", "pd", some [3]⟩] 2 _ _).1 (by rfl),
    (run_embed_alignment
      [⟨"a", "x", "pa", some [1]⟩, ⟨"b", "y", "pb", none⟩,
        ⟨"c", "z", "pc", some [2]⟩, ⟨"d", "w", "pd", some [3]⟩] 2 _ _).2 (by rfl)⟩

/-- Items that all fail to decode never touch the accumulators. -/
theorem bviLoop_all_fail (B : ℕ) (items : List EmbedItem)
    (feats : List (List (List ℚ))) (metas : List MetaRow)
    (batch : List (String × String × List ℚ))
    (h : ∀ it ∈ items, it.img = none) :
    bviLoop B items feats metas batch = (feats, metas, batch) := by
  induction items with
  | nil => rfl
  | cons it rest ih =>
    have hit := h it (List.mem_cons_self it rest)
    simp only [bviLoop, hit]
    exact ih (fun z hz => h z (List.mem_cons_of_mem it hz))

/-- C7 (amended, the part that holds): run_embed of
src/build_visual_index.py reports the empty condition and writes no
artifact whenever zero images embed successfully (no items at all, or
every decode fails). -/
theorem run_embed_no_write_when_none_embed (items : List EmbedItem) (B : ℕ)
    (h : ∀ it ∈ items, it.img = none) :
    run_embed items B = none := by
  rw [run_embed]
  split_ifs with hempty
  · rfl
  · rw [bviLoop_all_fail B items [] [] [] h]
    rfl

/-- C7 witness: one corrupt image, batch 32 — the builder writes
nothing. -/
theorem run_embed_no_write_witness :
    run_embed [⟨"c", "n", "p", none⟩] 32 = none :=
  run_embed_no_write_when_none_embed [⟨"c", "n", "p", none⟩] 32 (by
    intro it hit
    rcases List.mem_cons.mp hit with rfl | hit
    · rfl
    · simp at hit)

/-- C7 counterexample: run_embed of src/instant_price_match.py, given
one local image that fails to decode (zero successful embeds), still
persists a zero-row vector array and empty metadata table —
`V = np.zeros((0,512))` is saved unconditionally once any local image
exists. -/
theorem run_embed_ipm_writes_zero_rows :
    run_embed_ipm [⟨"c", "n", "p", none⟩] = some ([], []) := rfl

/-- load_embeddings from src/build_index.py: when the metadata row
count differs from the vector row count it only prints
`[warn] meta rows ... != vectors ...` and returns the pair anyway; the
boolean records whether the warning fired. -/
def load_embeddings (vecs : List (List ℚ)) (metas : List M) :
    Bool × List (List ℚ) × List M :=
  (decide (metas.length ≠ vecs.length), vecs, metas)

/-- C6 (amended): only the src/visual_scan.py loader fails closed on a
vector/metadata row-count mismatch; src/build_index.py load_embeddings
merely warns and returns the misaligned pair, and
src/instant_price_match.py match_image performs no alignment check at
all (see the counterexample). -/
theorem load_alignment_behavior (vecs : List (List ℚ)) (metas : List M)
    (h : metas.length ≠ vecs.length) :
    load_index vecs metas = .error SearchError.rowsMismatch ∧
      load_embeddings vecs metas = (true, vecs, metas) := by
  constructor
  · simp [load_index, h]
  · simp [load_embeddings, h]

/-- C6 witness: a 1-row vector array against a 2-row metadata table. -/
theorem load_alignment_behavior_witness :
    load_index [[1]] ([10, 20] : List ℕ) = .error SearchError.rowsMismatch ∧
      load_embeddings [[1]] ([10, 20] : List ℕ) = (true, [[1]], [10, 20]) :=
  load_alignment_behavior [[1]] [10, 20] (by decide)

/-- C6 counterexample: a persisted index whose metadata table has 2
rows while its vector array has 1 row; loading it for search through
src/instant_price_match.py match_image raises no error and returns a
ranked result — it does not fail closed. -/
theorem match_image_ipm_searches_misaligned_index :
    ([10, 20] : List ℕ).length ≠ ([[1, 0]] : List (List ℚ)).length ∧
      match_image_ipm [1, 0] [[1, 0]] ([10, 20] : List ℕ) 1 = .ok [⟨1, 1, 10⟩] := by
  refine ⟨by decide, ?_⟩
  norm_num [match_image_ipm, search_core, dumbselect, dumbstep, splitAtMin,
    negIdxPairs, argsortPairs, buildResults, keyLE, dot, List.insertionSort,
    List.orderedInsert]

/-- The 1e-10 epsilon src/tools/build_faiss_index.py adds to every row
norm before dividing. -/
def eps : ℚ := 1 / 10 ^ 10

/-- The divisor tools/build_faiss_index.py l2_normalize uses for a row
of norm `nu`: the norm plus the floor epsilon. -/
def l2_divisor (nu : ℚ) : ℚ := nu + eps

/-- The divisor _flush_batch of src/build_visual_index.py uses for a
row of norm `nu`: the bare norm, with no epsilon. -/
def flush_divisor (nu : ℚ) : ℚ := nu

/-- l2_normalize from src/tools/build_faiss_index.py, one row at a
time: `x /= (np.linalg.norm(x, axis=1, keepdims=True) + 1e-10)`.  The
exact row norm is irrational in general, so it arrives as the
parameter `nu`, constrained in the theorems by `0 ≤ nu` and
`nu * nu = normSq x`. -/
def l2_normalize_row (x : List ℚ) (nu : ℚ) : List ℚ :=
  x.map (fun a => a / l2_divisor nu)

/-- l2_normalize over the whole matrix: rows paired positionally with
their norms (`axis=1, keepdims=True`). -/
def l2_normalize (x : List (List ℚ)) (nus : List ℚ) : List (List ℚ) :=
  List.zipWith l2_normalize_row x nus

/-- The per-row normalization inside _flush_batch of
src/build_visual_index.py: `f = f / f.norm(dim=-1, keepdim=True)`. -/
def flush_normalize_row (x : List ℚ) (nu : ℚ) : List ℚ :=
  x.map (fun a => a / flush_divisor nu)

/-- Scaling a row by `1 / c` scales its squared norm by `1 / c ^ 2`
(also when `c = 0`, with the Lean convention `a / 0 = 0`). -/
theorem normSq_map_div (x : List ℚ) (c : ℚ) :
    normSq (x.map (fun a => a / c)) = normSq x / c ^ 2 := by
  induction x with
  | nil => simp [normSq, dot]
  | cons a rest ih =>
    simp only [List.map_cons, normSq, dot, List.zipWith_cons_cons, List.sum_cons] at ih ⊢
    rw [ih, div_mul_div_comm, pow_two, div_add_div_same]

/-- C8 (amended): in src/tools/build_faiss_index.py l2_normalize the
divisor `norm + 1e-10` is strictly positive for every row — including a
zero row — so division by zero never occurs there, and every row whose
norm is at least 1e-5 comes out with L2 norm within 1e-5 of 1 (stated
on the squared norm: it lies between (1 - 1e-5)^2 and 1).  The
normalization in src/build_visual_index.py _flush_batch, by contrast,
divides by the bare norm: see the counterexample. -/
theorem l2_normalize_guarded (x : List ℚ) (nu : ℚ)
    (h0 : 0 ≤ nu) (hn : nu * nu = normSq x) :
    0 < l2_divisor nu ∧
      (1 / 10 ^ 5 ≤ nu →
        (1 - 1 / 10 ^ 5 : ℚ) ^ 2 ≤ normSq (l2_normalize_row x nu) ∧
          normSq (l2_normalize_row x nu) ≤ 1) := by
  have heps : (0 : ℚ) < eps := by norm_num [eps]
  have hden : (0 : ℚ) < nu + eps := by linarith
  refine ⟨by simpa [l2_divisor] using hden, ?_⟩
  intro hnu
  have hnorm : normSq (l2_normalize_row x nu) = nu * nu / (nu + eps) ^ 2 := by
    rw [l2_normalize_row, l2_divisor, normSq_map_div, hn]
  rw [hnorm]
  constructor
  · rw [le_div_iff (by positivity)]
    have h1 : (1 - 1 / 10 ^ 5 : ℚ) * (nu + eps) ≤ nu := by
      rw [eps]
      nlinarith [hnu]
    nlinarith [h1, hden, hnu]
  · rw [div_le_one (by positivity)]
    nlinarith [h0, heps]

/-- C8 witness: the unit row `[3/5, 4/5]` (norm exactly 1) keeps
squared norm between `(1 - 1e-5)^2` and 1 after the guarded division. -/
theorem l2_normalize_guarded_witness :
    0 < l2_divisor 1 ∧
      ((1 : ℚ) / 10 ^ 5 ≤ 1 →
        (1 - 1 / 10 ^ 5 : ℚ) ^ 2 ≤ normSq (l2_normalize_row [3 / 5, 4 / 5] 1) ∧
          normSq (l2_normalize_row [3 / 5, 4 / 5] 1) ≤ 1) :=
  l2_normalize_guarded [3 / 5, 4 / 5] 1 (by norm_num)
    (by norm_num [normSq, dot])

/-- C8 counterexample: the zero row.  Its squared norm is 0, so its
only nonnegative norm is `nu = 0`; the divisor _flush_batch uses for it
is exactly 0 — division by zero does occur in that builder, because the
floor epsilon the claim promises is present only in
tools/build_faiss_index.py (whose divisor for the same row is the
nonzero epsilon). -/
theorem flush_batch_zero_row_divides_by_zero :
    (0 : ℚ) * 0 = normSq [(0 : ℚ), 0] ∧ flush_divisor 0 = 0 ∧
      l2_divisor 0 ≠ 0 := by
  norm_num [normSq, dot, flush_divisor, l2_divisor, eps]

/-- numpy dtypes tracked by the aliasing model of C10. -/
inductive DType where
  | float32
  | float64
  deriving DecidableEq

/-- A numpy array object: dtype plus row contents.  Array objects live
in a store (allocation list); an array reference is a store index. -/
structure NpArray where
  dtype : DType
  rows : List (List ℚ)
  deriving DecidableEq

/-- `x.astype("float32", copy=False)`: returns the very same array
object when the dtype already is float32, otherwise allocates a fresh
float32 copy at the end of the store and returns that. -/
def astype_f32_nocopy (st : List NpArray) (r : ℕ) : List NpArray × ℕ :=
  match st.get? r with
  | some a =>
    if a.dtype = DType.float32 then (st, r)
    else (st ++ [⟨DType.float32, a.rows⟩], st.length)
  | none => (st, r)

/-- `x /= n`: in-place row-wise division of the array object by the
per-row norms plus epsilon, mutating the store slot. -/
def idiv_l2 (st : List NpArray) (r : ℕ) (nus : List ℚ) : List NpArray :=
  match st.get? r with
  | some a => st.set r ⟨a.dtype, l2_normalize a.rows nus⟩
  | none => st

/-- l2_normalize from src/tools/build_faiss_index.py at the object
level: `x = x.astype("float32", copy=False); n = ...; x /= n; return x`.
Returns the updated store and the returned array reference. -/
def l2_normalize_obj (st : List NpArray) (r : ℕ) (nus : List ℚ) :
    List NpArray × ℕ :=
  let s1 := astype_f32_nocopy st r
  (idiv_l2 s1.1 s1.2 nus, s1.2)

/-- C10: l2_normalize works in place exactly when the input array
already has dtype float32 — the returned reference is the input
reference and the input slot now holds the normalized rows — while for
any other dtype a fresh float32 array is allocated and returned with
the normalized rows, and the input object is left untouched. -/
theorem l2_normalize_inplace_aliasing (st : List NpArray) (r : ℕ) (nus : List ℚ)
    (a : NpArray) (h : st.get? r = some a) :
    (a.dtype = DType.float32 →
      l2_normalize_obj st r nus =
        (st.set r ⟨DType.float32, l2_normalize a.rows nus⟩, r)) ∧
    (a.dtype ≠ DType.float32 →
      (l2_normalize_obj st r nus).2 = st.length ∧
        (l2_normalize_obj st r nus).1.get? r = some a ∧
        (l2_normalize_obj st r nus).1.get? st.length =
          some ⟨DType.float32, l2_normalize a.rows nus⟩) := by
  have hr : r < st.length := by
    by_contra hc
    rw [List.get?_eq_none.mpr (by omega)] at h
    exact Option.noConfusion h
  have h2 : st[r]? = some a := by
    rw [← List.get?_eq_getElem?]
    exact h
  constructor
  · intro hf
    have hstep : astype_f32_nocopy st r = (st, r) := by
      simp [astype_f32_nocopy, h2, hf]
    simp only [l2_normalize_obj, hstep, idiv_l2, h]
    rw [hf]
  · intro hf
    have hstep : astype_f32_nocopy st r =
        (st ++ [⟨DType.float32, a.rows⟩], st.length) := by
      simp [astype_f32_nocopy, h2, hf]
    have hget : (st ++ [(⟨DType.float32, a.rows⟩ : NpArray)]).get? st.length =
        some ⟨DType.float32, a.rows⟩ := List.get?_concat_length _ _
    simp only [l2_normalize_obj, hstep, idiv_l2, hget]
    refine ⟨trivial, ?_, ?_⟩
    · have hne : st.length ≠ r := by omega
      rw [List.get?_eq_getElem?, List.getElem?_set_ne hne, List.getElem?_append_left hr,
        ← List.get?_eq_getElem?]
      exact h
    · rw [List.get?_eq_getElem?, List.getElem?_set, if_pos rfl, if_pos (by simp)]

/-- C10 witness: a float32 array is normalized in place (same
reference, slot updated); a float64 array is copied first (fresh
reference, original slot untouched). -/
theorem l2_normalize_inplace_aliasing_witness :
    (l2_normalize_obj [⟨DType.float32, [[3, 4]]⟩] 0 [5] =
      ([⟨DType.float32, l2_normalize [[3, 4]] [5]⟩], 0)) ∧
      ((l2_normalize_obj [⟨DType.float64, [[3, 4]]⟩] 0 [5]).2 = 1 ∧
        (l2_normalize_obj [⟨DType.float64, [[3, 4]]⟩] 0 [5]).1.get? 0 =
          some ⟨DType.float64, [[3, 4]]⟩ ∧
        (l2_normalize_obj [⟨DType.float64, [[3, 4]]⟩] 0 [5]).1.get? 1 =
          some ⟨DType.float32, l2_normalize [[3, 4]] [5]⟩) :=
  ⟨(l2_normalize_inplace_aliasing [⟨DType.float32, [[3, 4]]⟩] 0 [5] _ rfl).1 rfl,
    (l2_normalize_inplace_aliasing [⟨DType.float64, [[3, 4]]⟩] 0 [5] _ rfl).2
      (by intro hc; exact DType.noConfusion hc)⟩

/-- search_numpy from src/tools/search_faiss.py (the numpy fallback of
the FAISS tool): re-normalizes the loaded feature rows with the same
`norm + 1e-10` divisor as l2_normalize (the per-row norms arrive as the
parameter `nus`, constrained as in the l2_normalize theorems; the
feature file choice and the 2-D shape check concern file handling and
are outside the value model), computes `sims = feats @ query_vec`, then
selects via `np.argpartition(-sims, range(min(topk, n)))[:topk]`
refined by `idx[np.argsort(-sims[idx])]`, returning the parallel arrays
`sims[idx], idx` (modelled zipped).

For the contiguous kth sequence `range(m)` numpy iterates introselect
over kth = 0, 1, ..., m-1 carrying its pivot store, so every call sees
`kth - low = 0 < 3` and performs exactly one first-minimum selection
step over the remaining slots — for arrays of every size, this is
precisely `dumbselect m`; an empty range (`m = 0`) partitions nothing
and leaves the identity order, which `dumbselect 0` also does. -/
def search_numpy (query_vec : List ℚ) (feats : List (List ℚ)) (nus : List ℚ)
    (topk : ℕ) : List (ℚ × ℕ) :=
  let feats2 := l2_normalize feats nus
  let sims := feats2.map (fun row => dot row query_vec)
  let idx := (dumbselect (min topk sims.length) (negIdxPairs sims 0)).take topk
  (argsortPairs idx).map (fun p => (-p.1, p.2))

/-- Whenever the result-building loop succeeds, the emitted scores are
exactly the negated tracked values, slot for slot (no alignment
assumption needed: success of every `iloc` lookup is enough). -/
theorem buildResults_ok_scores (metas : List M) (r : ℕ) (idx : List (ℚ × ℕ))
    (out : List (MatchResult M)) (h : buildResults metas r idx = .ok out) :
    out.map (fun e => e.score) = idx.map (fun p => -p.1) := by
  induction idx generalizing r out with
  | nil =>
    simp only [buildResults] at h
    injection h with h
    subst h
    rfl
  | cons p rest ih =>
    simp only [buildResults] at h
    cases hm : metas.get? p.2 with
    | none =>
      rw [hm] at h
      exact Except.noConfusion h
    | some m =>
      rw [hm] at h
      cases hb : buildResults metas (r + 1) rest with
      | error e =>
        rw [hb] at h
        exact Except.noConfusion h
      | ok out2 =>
        rw [hb] at h
        injection h with h
        subst h
        simp only [List.map_cons]
        rw [ih (r + 1) out2 hb]

/-- Sortedness of the instant_price_match search: every ranked list
match_image of src/instant_price_match.py returns is sorted in
non-increasing order of similarity score. -/
theorem match_image_ipm_scores_sorted (q : List ℚ) (vecs : List (List ℚ))
    (metas : List M) (topk : ℕ) (out : List (MatchResult M))
    (h : match_image_ipm q vecs metas topk = .ok out) :
    (out.map (fun e => e.score)).Sorted (fun a b : ℚ => b ≤ a) := by
  rcases Nat.eq_zero_or_pos vecs.length with h0 | h0
  · have hv : vecs = [] := List.length_eq_zero.mp h0
    subst hv
    simp only [match_image_ipm, List.map_nil, List.length_nil, if_pos rfl] at h
    injection h with h
    subst h
    simp
  · rw [match_image_ipm_eq q vecs metas topk h0] at h
    rw [buildResults_ok_scores _ 0 _ _ h, List.Sorted, List.pairwise_map]
    refine List.Pairwise.imp ?_ (dumbselect_take_spec (min topk vecs.length)
      (negIdxPairs (vecs.map (fun v => dot v q)) 0)).1
    intro a b hab
    exact neg_le_neg hab

/-- Sortedness of the numpy fallback search: the scores search_numpy
returns are sorted in non-increasing order (its final argsort sorts the
selected slots unconditionally). -/
theorem search_numpy_scores_sorted (q : List ℚ) (feats : List (List ℚ))
    (nus : List ℚ) (topk : ℕ) :
    ((search_numpy q feats nus topk).map Prod.fst).Sorted (fun a b : ℚ => b ≤ a) := by
  simp only [search_numpy, argsortPairs, List.map_map]
  rw [List.Sorted, List.pairwise_map]
  refine List.Pairwise.imp ?_ (List.sorted_insertionSort keyLE _)
  intro a b hab
  exact neg_le_neg hab

/-- C1 (amended): across all three search implementations —
match_image in src/visual_scan.py, match_image in
src/instant_price_match.py, and search_numpy in
src/tools/search_faiss.py — every ranked list returned is sorted in
non-increasing order of similarity score (strictly descending wherever
scores differ) and is deterministic for a fixed query and index; the
order of entries with equal scores is fixed by the selection algorithm
but is not the original index-row order (see the counterexample). -/
theorem search_scores_sorted_all (q : List ℚ) (vecs feats : List (List ℚ))
    (metas : List M) (nus : List ℚ) (topk topkF : ℕ)
    (out outIpm : List (MatchResult M))
    (h1 : match_image q vecs metas topk = .ok out)
    (h2 : match_image_ipm q vecs metas topk = .ok outIpm) :
    (out.map (fun e => e.score)).Sorted (fun a b : ℚ => b ≤ a) ∧
      (outIpm.map (fun e => e.score)).Sorted (fun a b : ℚ => b ≤ a) ∧
      ((search_numpy q feats nus topkF).map Prod.fst).Sorted (fun a b : ℚ => b ≤ a) :=
  ⟨match_image_scores_sorted q vecs metas topk out h1,
    match_image_ipm_scores_sorted q vecs metas topk outIpm h2,
    search_numpy_scores_sorted q feats nus topkF⟩

/-- C1 witness: concrete runs of all three implementations at once. -/
theorem search_scores_sorted_all_witness :
    (([⟨1, 2, 6⟩, ⟨2, 1, 5⟩] : List (MatchResult ℕ)).map (fun e => e.score)).Sorted
        (fun a b : ℚ => b ≤ a) ∧
      (([⟨1, 2, 6⟩, ⟨2, 1, 5⟩] : List (MatchResult ℕ)).map (fun e => e.score)).Sorted
        (fun a b : ℚ => b ≤ a) ∧
      ((search_numpy [1, 0] [[1, 0]] [1] 1).map Prod.fst).Sorted
        (fun a b : ℚ => b ≤ a) :=
  search_scores_sorted_all [1, 0] [[1, 0], [2, 0]] [[1, 0]] [5, 6] [1] 2 1 _ _
    (by norm_num [match_image, load_index, search_core, dumbselect, dumbstep, splitAtMin,
      negIdxPairs, argsortPairs, buildResults, keyLE, dot, List.insertionSort,
      List.orderedInsert])
    (by norm_num [match_image_ipm, search_core, dumbselect, dumbstep, splitAtMin,
      negIdxPairs, argsortPairs, buildResults, keyLE, dot, List.insertionSort,
      List.orderedInsert])

end InstantPriceMatch
